import Mathlib

/-!
Shallow embedding of `cpp/src/ast/linearizer.cpp` (the cudf AST linearizer)
together with correctness theorems about it.

The embedding covers the intermediate slot allocator
(`cudf::ast::detail::intermediate_counter`) and the linearizer visitor
(`cudf::ast::detail::linearizer`).  `cudf::size_type` (a 32-bit signed
integer) is modelled as `Int`; all quantities reachable in a linearization
run stay far below `2^31`, so overflow behaviour is immaterial and is not
modelled.  C++ exceptions (`CUDF_FAIL`) are modelled with `Except`.
-/

namespace CudfAst

/-- State of `cudf::ast::detail::intermediate_counter`: the vector
`used_values` of currently allocated (live) intermediate slot identifiers,
kept sorted ascending, and the high-water mark `max_used`.  The in-class
member initialisers live in the header (not part of the sources); the spec
says the allocator starts empty, see `intermediate_counter.empty`. -/
structure intermediate_counter where
  used_values : List Int
  max_used : Int
deriving DecidableEq

/-- Embedding of `intermediate_counter::find_first_missing` (linearizer.cpp
lines 50-66): binary search over the sorted vector `used_values` for the
lowest index whose stored value differs from the index.  Vector indexing
`used_values.at(i)` is modelled with `List.getD`; every call reachable from
`take()` is in bounds and has non-negative arguments, where Lean's integer
division agrees with the C++ one. -/
def intermediate_counter.find_first_missing (c : intermediate_counter) (s e : Int) : Int :=
  if h1 : e < s then e + 1
  else if h2 : c.used_values.getD s.toNat 0 ≠ s then s
  else if h3 : c.used_values.getD ((s + e) / 2).toNat 0 = (s + e) / 2 then
    c.find_first_missing ((s + e) / 2 + 1) e
  else
    c.find_first_missing s ((s + e) / 2)
termination_by (e + 1 - s).toNat
decreasing_by
  · omega
  · have hne : (s + e) / 2 ≠ s := by
      intro hq
      rw [hq] at h3
      exact h3 (not_not.mp h2)
    omega

/-- Embedding of `intermediate_counter::take` (lines 35-42): find the lowest
unused slot value, insert it at its sorted position (`vector::insert` at
offset `first_missing`, modelled with `take`/`drop`), raise the high-water
mark to `max(max_used, first_missing + 1)`, and return the slot. -/
def intermediate_counter.take (c : intermediate_counter) : Int × intermediate_counter :=
  let first_missing : Int :=
    if c.used_values.length ≠ 0 then c.find_first_missing 0 ((c.used_values.length : Int) - 1)
    else 0
  (first_missing,
    { used_values := c.used_values.take first_missing.toNat ++
        first_missing :: c.used_values.drop first_missing.toNat,
      max_used := max c.max_used (first_missing + 1) })

/-- Embedding of `intermediate_counter::give` (lines 44-48): erase the first
occurrence of `value` from `used_values` if present, otherwise do nothing.
`List.erase` is exactly `std::find` followed by a conditional `erase`. -/
def intermediate_counter.give (c : intermediate_counter) (value : Int) : intermediate_counter :=
  { c with used_values := c.used_values.erase value }

/-- Modelled from the spec: `peak()` is only declared in
`cudf/ast/linearizer.hpp`, which is not among the sources; per the spec it
"returns the high-water mark". -/
def intermediate_counter.peak (c : intermediate_counter) : Int := c.max_used

/-- Modelled from the spec: a freshly constructed allocator "starts empty"
with high-water mark 0 (the member initialisers live in the header). -/
def intermediate_counter.empty : intermediate_counter := ⟨[], 0⟩

/-! ### Specification-side description of the allocator -/

/-- Lowest position (counting from `k`) at which the list entry differs from
the position; `k + l.length` if no entry does.  `first_gap l 0` is the lowest
index `i` with `l[i] ≠ i`, which for a sorted duplicate-free list of
non-negative integers is exactly the smallest value missing from the list. -/
def first_gap : List Int → Nat → Nat
  | [], k => k
  | x :: xs, k => if x = (k : Int) then first_gap xs (k + 1) else k

theorem first_gap_le (l : List Int) (k : Nat) :
    k ≤ first_gap l k ∧ first_gap l k ≤ k + l.length := by
  induction l generalizing k with
  | nil => simp [first_gap]
  | cons x xs ih =>
    simp only [first_gap]
    split
    · have := ih (k + 1)
      simp only [List.length_cons]
      omega
    · simp

theorem first_gap_getD (l : List Int) (k i : Nat) (hk : k ≤ i) (hi : i < first_gap l k) :
    l.getD (i - k) 0 = (i : Int) := by
  induction l generalizing k i with
  | nil => simp [first_gap] at hi; omega
  | cons x xs ih =>
    simp only [first_gap] at hi
    split at hi
    · rcases Nat.eq_or_lt_of_le hk with h | h
      · subst h
        simpa using ‹x = (k : Int)›
      · have h1 : i - k = (i - (k + 1)) + 1 := by omega
        rw [h1]
        simpa using ih (k + 1) i h hi
    · omega

theorem first_gap_self (l : List Int) (k : Nat) (h : first_gap l k < k + l.length) :
    l.getD (first_gap l k - k) 0 ≠ ((first_gap l k : Nat) : Int) := by
  induction l generalizing k with
  | nil => simp [first_gap] at h
  | cons x xs ih =>
    by_cases hx : x = (k : Int)
    · rw [first_gap, if_pos hx] at h ⊢
      have hk1 := (first_gap_le xs (k + 1)).1
      have h1 : first_gap xs (k + 1) - k = (first_gap xs (k + 1) - (k + 1)) + 1 := by omega
      rw [h1]
      have := ih (k + 1) (by simp only [List.length_cons] at h; omega)
      simpa using this
    · rw [first_gap, if_neg hx]
      simpa using hx

/-- In a strictly increasing list, values grow at least as fast as indices. -/
theorem pairwise_getD_add (l : List Int) (hl : l.Pairwise (· < ·)) (i j : Nat)
    (hij : i ≤ j) (hj : j < l.length) :
    l.getD i 0 + ((j : Int) - (i : Int)) ≤ l.getD j 0 := by
  induction l generalizing i j with
  | nil => simp at hj
  | cons x xs ih =>
    rw [List.pairwise_cons] at hl
    obtain ⟨hx, hxs⟩ := hl
    match i, j with
    | 0, 0 => simp
    | 0, j + 1 =>
      have hj' : j < xs.length := by simpa using hj
      have h0 : xs.getD 0 0 + ((j : Int) - 0) ≤ xs.getD j 0 := ih hxs 0 j (by omega) hj'
      have hmem : xs.getD 0 0 ∈ xs := by
        rw [List.getD_eq_getElem xs 0 (by omega)]
        exact List.getElem_mem _
      have hx0 : x < xs.getD 0 0 := hx _ hmem
      have : (x :: xs).getD (j + 1) 0 = xs.getD j 0 := by simp [List.getD]
      rw [this]
      simp only [List.getD_cons_zero] at h0 ⊢
      push_cast
      omega
    | i + 1, j + 1 =>
      have hj' : j < xs.length := by simpa using hj
      have := ih hxs i j (by omega) hj'
      have e1 : (x :: xs).getD (i + 1) 0 = xs.getD i 0 := by simp [List.getD]
      have e2 : (x :: xs).getD (j + 1) 0 = xs.getD j 0 := by simp [List.getD]
      rw [e1, e2]
      push_cast at this ⊢
      omega

/-- In a strictly increasing list of non-negative integers, the value at
index `i` is at least `i`. -/
theorem getD_ge_index (l : List Int) (hl : l.Pairwise (· < ·))
    (hnn : ∀ x ∈ l, 0 ≤ x) (i : Nat) (hi : i < l.length) :
    (i : Int) ≤ l.getD i 0 := by
  have h0 : 0 ≤ l.getD 0 0 := by
    apply hnn
    rw [List.getD_eq_getElem l 0 (by omega)]
    exact List.getElem_mem _
  have := pairwise_getD_add l hl 0 i (by omega) hi
  push_cast at this
  omega

/-- If the entry at index `m` of a strictly increasing non-negative list
equals `m`, then every entry at an index `i ≤ m` equals `i`. -/
theorem complete_below (l : List Int) (hl : l.Pairwise (· < ·))
    (hnn : ∀ x ∈ l, 0 ≤ x) (m : Nat) (hm : m < l.length)
    (hmm : l.getD m 0 = (m : Int)) (i : Nat) (him : i ≤ m) :
    l.getD i 0 = (i : Int) := by
  have h1 := pairwise_getD_add l hl i m him hm
  have h2 := getD_ge_index l hl hnn i (by omega)
  rw [hmm] at h1
  omega

/-- Every entry of a strictly increasing non-negative list at an index at or
past the first gap is strictly larger than the gap value. -/
theorem getD_gt_gap (l : List Int) (hl : l.Pairwise (· < ·))
    (hnn : ∀ x ∈ l, 0 ≤ x) (j : Nat) (hj : j < l.length)
    (hgj : first_gap l 0 ≤ j) :
    ((first_gap l 0 : Nat) : Int) < l.getD j 0 := by
  set g := first_gap l 0 with hg
  have hgl : g < l.length := by omega
  have h1 : (g : Int) ≤ l.getD g 0 := getD_ge_index l hl hnn g hgl
  have h2 : l.getD g 0 ≠ (g : Int) := by
    have := first_gap_self l 0 (by omega)
    simpa using this
  have h3 := pairwise_getD_add l hl g j hgj hj
  omega

/-- The first gap value of a strictly increasing non-negative list is not an
element of the list. -/
theorem gap_not_mem (l : List Int) (hl : l.Pairwise (· < ·))
    (hnn : ∀ x ∈ l, 0 ≤ x) : ((first_gap l 0 : Nat) : Int) ∉ l := by
  intro hmem
  obtain ⟨j, hj, hjv⟩ := List.mem_iff_getElem.mp hmem
  have hjd : l.getD j 0 = ((first_gap l 0 : Nat) : Int) := by
    rw [List.getD_eq_getElem l 0 hj]; exact hjv
  by_cases hcase : j < first_gap l 0
  · have := first_gap_getD l 0 j (by omega) hcase
    simp only [Nat.sub_zero] at this
    rw [this] at hjd
    have : j = first_gap l 0 := by exact_mod_cast hjd
    omega
  · have := getD_gt_gap l hl hnn j hj (by omega)
    omega

/-- Every non-negative value below the first gap is an element of the list. -/
theorem mem_of_lt_gap (l : List Int) (w : Int) (h0 : 0 ≤ w)
    (hw : w < ((first_gap l 0 : Nat) : Int)) : w ∈ l := by
  have hwn : w.toNat < first_gap l 0 := by omega
  have hlen : first_gap l 0 ≤ l.length := by
    have := first_gap_le l 0
    omega
  have := first_gap_getD l 0 w.toNat (by omega) hwn
  simp only [Nat.sub_zero] at this
  have hmem : l.getD w.toNat 0 ∈ l := by
    rw [List.getD_eq_getElem l 0 (by omega)]
    exact List.getElem_mem _
  rw [this] at hmem
  have : ((w.toNat : Nat) : Int) = w := by omega
  rwa [this] at hmem

/-- Correctness of the binary search: on a strictly increasing non-negative
`used_values`, any call whose range brackets the first gap returns the first
gap. -/
theorem find_first_missing_eq_gap (c : intermediate_counter)
    (hl : c.used_values.Pairwise (· < ·)) (hnn : ∀ x ∈ c.used_values, 0 ≤ x) :
    ∀ (n : Nat) (s e : Int), (e + 1 - s).toNat ≤ n → 0 ≤ s →
      e + 1 ≤ (c.used_values.length : Int) →
      s ≤ ((first_gap c.used_values 0 : Nat) : Int) →
      ((first_gap c.used_values 0 : Nat) : Int) ≤ e + 1 →
      c.find_first_missing s e = ((first_gap c.used_values 0 : Nat) : Int) := by
  set l := c.used_values with hlv
  set g := first_gap l 0 with hg
  intro n
  induction n with
  | zero =>
    intro s e hn hs hel hsg hge
    rw [intermediate_counter.find_first_missing]
    rw [dif_pos (by omega)]
    omega
  | succ n ih =>
    intro s e hn hs hel hsg hge
    rw [intermediate_counter.find_first_missing]
    by_cases h1 : e < s
    · rw [dif_pos h1]
      omega
    · rw [dif_neg h1]
      by_cases h2 : l.getD s.toNat 0 ≠ s
      · rw [dif_pos h2]
        -- the entry at s differs from s, so the gap is at most s; with s ≤ g, s = g.
        rcases Nat.lt_or_ge s.toNat g with hlt | hge2
        · exfalso
          have := first_gap_getD l 0 s.toNat (by omega) hlt
          simp only [Nat.sub_zero] at this
          apply h2
          rw [this]
          omega
        · omega
      · rw [dif_neg h2]
        push_neg at h2
        have hmidnn : 0 ≤ (s + e) / 2 := by omega
        have hmidle : (s + e) / 2 ≤ e := by omega
        have hmidlen : ((s + e) / 2).toNat < l.length := by omega
        by_cases h3 : l.getD ((s + e) / 2).toNat 0 = (s + e) / 2
        · rw [dif_pos h3]
          -- everything up to mid matches, so the gap is beyond mid
          have hgmid : (s + e) / 2 + 1 ≤ (g : Int) := by
            rcases Nat.lt_or_ge ((s + e) / 2).toNat g with hlt | hge2
            · omega
            · exfalso
              have hgl : g < l.length := by omega
              have hself := first_gap_self l 0 (by omega)
              simp only [Nat.sub_zero] at hself
              apply hself
              exact complete_below l hl hnn ((s + e) / 2).toNat hmidlen
                (by rw [h3]; omega) g hge2
          exact ih ((s + e) / 2 + 1) e (by omega) (by omega) hel hgmid hge
        · rw [dif_neg h3]
          -- the entry at mid differs from mid, so the gap is at most mid
          have hgmid : (g : Int) ≤ (s + e) / 2 := by
            rcases Nat.lt_or_ge ((s + e) / 2).toNat g with hlt | hge2
            · exfalso
              have := first_gap_getD l 0 ((s + e) / 2).toNat (by omega) hlt
              simp only [Nat.sub_zero] at this
              apply h3
              rw [this]
              omega
            · omega
          have hmidne : (s + e) / 2 ≠ s := by
            intro hq
            rw [hq] at h3
            exact h3 h2
          exact ih s ((s + e) / 2) (by omega) hs (by omega) hsg (by omega)

/-- The first gap of a fully packed list (every entry equal to its index) is
the list's length. -/
theorem first_gap_of_complete (l : List Int)
    (h : ∀ i : Nat, i < l.length → l.getD i 0 = (i : Int)) :
    first_gap l 0 = l.length := by
  have hle := first_gap_le l 0
  rcases Nat.lt_or_ge (first_gap l 0) l.length with hlt | hge
  · exfalso
    have hself := first_gap_self l 0 (by omega)
    simp only [Nat.sub_zero] at hself
    exact hself (h _ hlt)
  · omega

theorem take_fst_eq_gap (c : intermediate_counter)
    (hl : c.used_values.Pairwise (· < ·)) (hnn : ∀ x ∈ c.used_values, 0 ≤ x) :
    (c.take).1 = ((first_gap c.used_values 0 : Nat) : Int) := by
  rw [intermediate_counter.take]
  by_cases h : c.used_values.length ≠ 0
  · simp only [if_pos h]
    have hle := first_gap_le c.used_values 0
    exact find_first_missing_eq_gap c hl hnn c.used_values.length 0
      ((c.used_values.length : Int) - 1) (by omega) (by omega) (by omega)
      (by omega) (by omega)
  · simp only [if_neg h]
    push_neg at h
    rw [List.length_eq_zero] at h
    rw [h]
    simp [first_gap]

theorem take_snd_used (c : intermediate_counter) :
    (c.take).2.used_values =
      c.used_values.take (c.take).1.toNat ++ (c.take).1 :: c.used_values.drop (c.take).1.toNat :=
  rfl

theorem take_snd_max (c : intermediate_counter) :
    (c.take).2.max_used = max c.max_used ((c.take).1 + 1) := rfl

theorem mem_take_lt_gap (l : List Int) (x : Int)
    (hx : x ∈ l.take (first_gap l 0)) : x < ((first_gap l 0 : Nat) : Int) := by
  obtain ⟨i, hi, hiv⟩ := List.mem_iff_getElem.mp hx
  simp only [List.length_take] at hi
  have hilen : i < l.length := by omega
  have hig : i < first_gap l 0 := by omega
  have : (l.take (first_gap l 0))[i] = l[i] := List.getElem_take ..
  rw [this] at hiv
  have hgd := first_gap_getD l 0 i (by omega) hig
  simp only [Nat.sub_zero] at hgd
  rw [List.getD_eq_getElem l 0 hilen] at hgd
  rw [← hiv, hgd]
  exact_mod_cast hig

theorem mem_drop_gt_gap (l : List Int) (hl : l.Pairwise (· < ·))
    (hnn : ∀ x ∈ l, 0 ≤ x) (x : Int)
    (hx : x ∈ l.drop (first_gap l 0)) : ((first_gap l 0 : Nat) : Int) < x := by
  obtain ⟨i, hi, hiv⟩ := List.mem_iff_getElem.mp hx
  simp only [List.length_drop] at hi
  have : (l.drop (first_gap l 0))[i] = l[first_gap l 0 + i] := List.getElem_drop ..
  rw [this] at hiv
  have := getD_gt_gap l hl hnn (first_gap l 0 + i) (by omega) (by omega)
  rw [List.getD_eq_getElem l 0 (by omega)] at this
  omega

theorem take_mem_iff (c : intermediate_counter)
    (_hl : c.used_values.Pairwise (· < ·)) (_hnn : ∀ x ∈ c.used_values, 0 ≤ x)
    (x : Int) :
    x ∈ (c.take).2.used_values ↔ (x ∈ c.used_values ∨ x = (c.take).1) := by
  rw [take_snd_used]
  constructor
  · intro hx
    rcases List.mem_append.mp hx with h | h
    · exact Or.inl (List.mem_of_mem_take h)
    · rcases List.mem_cons.mp h with h | h
      · exact Or.inr h
      · exact Or.inl (List.mem_of_mem_drop h)
  · intro hx
    rcases hx with h | h
    · conv at h => rw [← List.take_append_drop (c.take).1.toNat c.used_values]
      rcases List.mem_append.mp h with h | h
      · exact List.mem_append.mpr (Or.inl h)
      · exact List.mem_append.mpr (Or.inr (List.mem_cons.mpr (Or.inr h)))
    · exact List.mem_append.mpr (Or.inr (List.mem_cons.mpr (Or.inl h)))

theorem take_sorted (c : intermediate_counter)
    (hl : c.used_values.Pairwise (· < ·)) (hnn : ∀ x ∈ c.used_values, 0 ≤ x) :
    (c.take).2.used_values.Pairwise (· < ·) := by
  rw [take_snd_used, take_fst_eq_gap c hl hnn]
  have htn : (((first_gap c.used_values 0 : Nat) : Int)).toNat = first_gap c.used_values 0 := by
    omega
  rw [htn]
  rw [List.pairwise_append]
  refine ⟨hl.sublist (List.take_sublist _ _), ?_, ?_⟩
  · rw [List.pairwise_cons]
    exact ⟨fun y hy => mem_drop_gt_gap c.used_values hl hnn y hy,
      hl.sublist (List.drop_sublist _ _)⟩
  · intro a ha b hb
    have ha' := mem_take_lt_gap c.used_values a ha
    rcases List.mem_cons.mp hb with h | h
    · omega
    · have := mem_drop_gt_gap c.used_values hl hnn b h
      omega

theorem take_length (c : intermediate_counter)
    (hl : c.used_values.Pairwise (· < ·)) (hnn : ∀ x ∈ c.used_values, 0 ≤ x) :
    (c.take).2.used_values.length = c.used_values.length + 1 := by
  rw [take_snd_used, take_fst_eq_gap c hl hnn]
  have hle := first_gap_le c.used_values 0
  simp only [List.length_append, List.length_take, List.length_cons, List.length_drop]
  omega

theorem take_fst_nonneg (c : intermediate_counter)
    (hl : c.used_values.Pairwise (· < ·)) (hnn : ∀ x ∈ c.used_values, 0 ≤ x) :
    0 ≤ (c.take).1 := by
  rw [take_fst_eq_gap c hl hnn]
  omega

theorem take_fst_le_length (c : intermediate_counter)
    (hl : c.used_values.Pairwise (· < ·)) (hnn : ∀ x ∈ c.used_values, 0 ≤ x) :
    (c.take).1 ≤ (c.used_values.length : Int) := by
  rw [take_fst_eq_gap c hl hnn]
  have := first_gap_le c.used_values 0
  omega

theorem give_used (c : intermediate_counter) (v : Int) :
    (c.give v).used_values = c.used_values.erase v := rfl

theorem give_max (c : intermediate_counter) (v : Int) :
    (c.give v).max_used = c.max_used := rfl

theorem give_sorted (c : intermediate_counter)
    (hl : c.used_values.Pairwise (· < ·)) (v : Int) :
    (c.give v).used_values.Pairwise (· < ·) :=
  hl.sublist (List.erase_sublist v c.used_values)

theorem give_mem (c : intermediate_counter) (v x : Int)
    (hx : x ∈ (c.give v).used_values) : x ∈ c.used_values :=
  List.mem_of_mem_erase hx

/-- C2: on every allocator state whose used set is sorted, duplicate-free and
non-negative, `take()` returns the smallest non-negative integer not in the
set, inserts it keeping the set sorted (the new set holds exactly the old
values plus the returned one), and sets the high-water mark to the maximum
of its old value and the returned slot plus one; and `find_first_missing`,
called as `take()` calls it, returns the set's size whenever no stored value
deviates from its position (in particular when the set is empty). -/
theorem take_correct (c : intermediate_counter)
    (hl : c.used_values.Pairwise (· < ·)) (hnn : ∀ x ∈ c.used_values, 0 ≤ x) :
    ((c.take).1 ∉ c.used_values ∧ 0 ≤ (c.take).1 ∧
      (∀ w : Int, 0 ≤ w → w < (c.take).1 → w ∈ c.used_values)) ∧
    ((c.take).2.used_values.Pairwise (· < ·) ∧
      (∀ x : Int, x ∈ (c.take).2.used_values ↔ (x ∈ c.used_values ∨ x = (c.take).1))) ∧
    (c.take).2.max_used = max c.max_used ((c.take).1 + 1) ∧
    ((∀ i : Nat, i < c.used_values.length → c.used_values.getD i 0 = (i : Int)) →
      c.find_first_missing 0 ((c.used_values.length : Int) - 1) =
        (c.used_values.length : Int)) := by
  refine ⟨⟨?_, take_fst_nonneg c hl hnn, ?_⟩,
    ⟨take_sorted c hl hnn, take_mem_iff c hl hnn⟩, take_snd_max c, ?_⟩
  · rw [take_fst_eq_gap c hl hnn]
    exact gap_not_mem c.used_values hl hnn
  · intro w hw0 hwlt
    rw [take_fst_eq_gap c hl hnn] at hwlt
    exact mem_of_lt_gap c.used_values w hw0 hwlt
  · intro hcomp
    have hg := first_gap_of_complete c.used_values hcomp
    have hle := first_gap_le c.used_values 0
    have := find_first_missing_eq_gap c hl hnn c.used_values.length 0
      ((c.used_values.length : Int) - 1) (by omega) (by omega) (by omega)
      (by omega) (by omega)
    rw [this, hg]

/-- Concrete allocator state (live slots 0, 1 and 3, high-water mark 4) used
by the witness of `take_correct`. -/
def c013 : intermediate_counter := ⟨[0, 1, 3], 4⟩

/-- Witness for `take_correct` at the concrete state `c013`. -/
theorem take_correct_witness :
    (c013.used_values.Pairwise (· < ·) ∧ (∀ x ∈ c013.used_values, 0 ≤ x)) ∧
    (c013.take).1 ∉ c013.used_values ∧
    (c013.take).2.used_values.Pairwise (· < ·) ∧
    (c013.take).2.max_used = max c013.max_used ((c013.take).1 + 1) :=
  ⟨⟨by decide, by decide⟩, (take_correct c013 (by decide) (by decide)).1.1,
    (take_correct c013 (by decide) (by decide)).2.1.1,
    (take_correct c013 (by decide) (by decide)).2.2.1⟩

/-! ### Allocator operation sequences -/

/-- A client operation on the slot allocator. -/
inductive alloc_op where
  | take_op : alloc_op
  | give_op : Int → alloc_op

/-- One allocator operation applied to a state. -/
def alloc_step (c : intermediate_counter) : alloc_op → intermediate_counter
  | .take_op => (c.take).2
  | .give_op v => c.give v

/-- The allocator state after a sequence of operations. -/
def run_allocator (c : intermediate_counter) : List alloc_op → intermediate_counter
  | [] => c
  | op :: ops => run_allocator (alloc_step c op) ops

/-- The maximum, over a whole operation sequence (initial and final states
included), of the number of simultaneously live slots. -/
def peak_live (c : intermediate_counter) : List alloc_op → Nat
  | [] => c.used_values.length
  | op :: ops => max c.used_values.length (peak_live (alloc_step c op) ops)

/-- Invariant holding at every allocator state reachable from the empty
state. -/
def alloc_inv (c : intermediate_counter) : Prop :=
  c.used_values.Pairwise (· < ·) ∧ (∀ x ∈ c.used_values, 0 ≤ x) ∧
    (∀ x ∈ c.used_values, x + 1 ≤ c.max_used) ∧ 0 ≤ c.max_used

theorem length_le_max_used (c : intermediate_counter) (hc : alloc_inv c) :
    (c.used_values.length : Int) ≤ c.max_used := by
  obtain ⟨hl, hnn, hbound, h0⟩ := hc
  rcases Nat.eq_zero_or_pos c.used_values.length with h | h
  · rw [h]; omega
  · have hlt : c.used_values.length - 1 < c.used_values.length := by omega
    have hge := getD_ge_index c.used_values hl hnn (c.used_values.length - 1) hlt
    have hmem : c.used_values.getD (c.used_values.length - 1) 0 ∈ c.used_values := by
      rw [List.getD_eq_getElem c.used_values 0 hlt]
      exact List.getElem_mem _
    have := hbound _ hmem
    omega

theorem alloc_step_inv (c : intermediate_counter) (op : alloc_op) (hc : alloc_inv c) :
    alloc_inv (alloc_step c op) := by
  obtain ⟨hl, hnn, hbound, h0⟩ := hc
  cases op with
  | take_op =>
    refine ⟨take_sorted c hl hnn, ?_, ?_, ?_⟩
    · intro x hx
      rcases (take_mem_iff c hl hnn x).mp hx with h | h
      · exact hnn x h
      · rw [h]; exact take_fst_nonneg c hl hnn
    · intro x hx
      rw [alloc_step] at hx ⊢
      rw [take_snd_max]
      rcases (take_mem_iff c hl hnn x).mp hx with h | h
      · have := hbound x h
        omega
      · rw [h]
        omega
    · rw [alloc_step, take_snd_max]
      omega
  | give_op v =>
    exact ⟨give_sorted c hl v, fun x hx => hnn x (give_mem c v x hx),
      fun x hx => hbound x (give_mem c v x hx), h0⟩

theorem peak_live_ge (c : intermediate_counter) (ops : List alloc_op) :
    c.used_values.length ≤ peak_live c ops := by
  cases ops with
  | nil => exact Nat.le_refl _
  | cons op ops => exact Nat.le_max_left _ _

theorem run_allocator_max (ops : List alloc_op) : ∀ c : intermediate_counter,
    alloc_inv c →
    (run_allocator c ops).max_used = max c.max_used ((peak_live c ops : Nat) : Int) ∧
      alloc_inv (run_allocator c ops) := by
  induction ops with
  | nil =>
    intro c hc
    have := length_le_max_used c hc
    rw [run_allocator, peak_live]
    exact ⟨by omega, hc⟩
  | cons op ops ih =>
    intro c hc
    obtain ⟨hmax, hinv⟩ := ih (alloc_step c op) (alloc_step_inv c op hc)
    rw [run_allocator, peak_live]
    refine ⟨?_, hinv⟩
    rw [hmax]
    have hplge := peak_live_ge (alloc_step c op) ops
    have hlmax := length_le_max_used c hc
    cases op with
    | take_op =>
      rw [alloc_step] at hplge ⊢
      rw [take_snd_max]
      have hlen := take_length c hc.1 hc.2.1
      have hle := take_fst_le_length c hc.1 hc.2.1
      rw [hlen] at hplge
      have h1 : ((max c.used_values.length (peak_live (c.take).2 ops) : Nat) : Int) =
          max (c.used_values.length : Int) ((peak_live (c.take).2 ops : Nat) : Int) := by
        push_cast; rfl
      rw [h1]
      omega
    | give_op v =>
      rw [alloc_step] at hplge ⊢
      rw [give_max]
      have h1 : ((max c.used_values.length (peak_live (c.give v) ops) : Nat) : Int) =
          max (c.used_values.length : Int) ((peak_live (c.give v) ops : Nat) : Int) := by
        push_cast; rfl
      rw [h1]
      omega

/-- C1: starting from the empty allocator, after any sequence of `take` and
`give` operations no two live slots share an identifier (the live set has no
duplicates — and since every prefix is itself such a sequence, this holds
throughout the run), and `peak()` returns the high-water mark, which equals
the maximum over the whole sequence of the number of simultaneously live
slots. -/
theorem allocator_run_correct (ops : List alloc_op) :
    (run_allocator intermediate_counter.empty ops).used_values.Nodup ∧
    (run_allocator intermediate_counter.empty ops).peak =
      ((peak_live intermediate_counter.empty ops : Nat) : Int) := by
  have h0 : alloc_inv intermediate_counter.empty := by
    refine ⟨?_, ?_, ?_, ?_⟩ <;> simp [intermediate_counter.empty]
  obtain ⟨hmax, hinv⟩ := run_allocator_max ops intermediate_counter.empty h0
  constructor
  · exact hinv.1.imp Int.ne_of_lt
  · rw [intermediate_counter.peak, hmax]
    have : intermediate_counter.empty.max_used = 0 := rfl
    rw [this]
    omega

/-- C10: `give` never changes the high-water mark (whatever the state and
value), every single operation leaves `peak()` at least as large as before,
and hence over any operation sequence the reported peak is monotonically
non-decreasing. -/
theorem give_frame_peak_monotone :
    (∀ (c : intermediate_counter) (v : Int), (c.give v).peak = c.peak) ∧
    (∀ (c : intermediate_counter) (op : alloc_op), c.peak ≤ (alloc_step c op).peak) ∧
    (∀ (c : intermediate_counter) (ops : List alloc_op),
      c.peak ≤ (run_allocator c ops).peak) := by
  have hstep : ∀ (c : intermediate_counter) (op : alloc_op),
      c.peak ≤ (alloc_step c op).peak := by
    intro c op
    cases op with
    | take_op =>
      rw [alloc_step, intermediate_counter.peak, intermediate_counter.peak, take_snd_max]
      omega
    | give_op v => rw [alloc_step, intermediate_counter.peak, intermediate_counter.peak,
        give_max]
  refine ⟨fun c v => rfl, hstep, ?_⟩
  intro c ops
  induction ops generalizing c with
  | nil => exact le_refl _
  | cons op ops ih =>
    rw [run_allocator]
    exact le_trans (hstep c op) (ih (alloc_step c op))

/-! ### The linearizer -/

/-- Embedding of `cudf::data_type`: only the type id matters to the
linearizer, so a data type is a bare identifier.  Concrete theorems use
distinct identifiers for distinct types (e.g. `int32` and `int64`). -/
abbrev data_type := Nat

/-- Embedding of `cudf::ast::table_reference` (header enum; its use in
linearizer.cpp shows the values `LEFT` and `OUTPUT`, plus the input side
carried by column references). -/
inductive table_reference where
  | LEFT : table_reference
  | RIGHT : table_reference
  | OUTPUT : table_reference
deriving DecidableEq

/-- Embedding of `cudf::ast::detail::device_data_reference_type` (header
enum; linearizer.cpp uses `COLUMN`, `LITERAL` and `INTERMEDIATE`). -/
inductive device_data_reference_type where
  | COLUMN : device_data_reference_type
  | LITERAL : device_data_reference_type
  | INTERMEDIATE : device_data_reference_type
deriving DecidableEq

/-- Embedding of `cudf::ast::detail::device_data_reference`.  The spec calls
a reference of kind `COLUMN` whose `table_source` is `OUTPUT` an
"OUTPUT_COLUMN" reference.  Modelled from the spec: the header declares the
record and its `operator==`; per the spec two references "are equal iff all
fields match", and `table_source` defaults to the input (`LEFT`) side for
literal and intermediate references, for which it is not meaningful. -/
structure device_data_reference where
  reference_type : device_data_reference_type
  data_type : data_type
  data_index : Int
  table_source : table_reference := table_reference.LEFT
deriving DecidableEq

instance : Inhabited device_data_reference :=
  ⟨{ reference_type := .COLUMN, data_type := 0, data_index := 0 }⟩

/-- Embedding of `cudf::ast::ast_operator` (header enum): only the tag
identity matters to the linearizer. -/
abbrev ast_operator := Nat

/-- Embedding of the AST node model (`literal`, `column_reference`,
`expression` from the headers; linearizer.cpp consumes them through
`accept`/`visit` double dispatch, modelled as a match on this closed
variant set).  A literal carries an opaque token for its device scalar
value plus its data type; a column reference carries its column index and
table side; an operation carries its operator tag and operand list. -/
inductive node where
  | literal : Nat → data_type → node
  | column_reference : Nat → table_reference → node
  | expression : ast_operator → List node → node

/-- Modelled from the spec: the external collaborators of the linearizer
(the type traits `cudf::is_fixed_width` and `cudf::size_of`, and the
operator type-promotion registry `cudf::ast::ast_operator_return_type`,
which fails on an unsupported operator/operand combination — hence
`Option`). -/
structure ExtEnv where
  is_fixed_width : data_type → Bool
  size_of : data_type → Nat
  ast_operator_return_type : ast_operator → List data_type → Option data_type

/-- The mutable state of `cudf::ast::detail::linearizer`: the visitation
counter, the reference table, the literal pool (device views modelled by
their tokens), the emitted operator sequence, the flat operand/result index
sequence, and the slot allocator. -/
structure linearizer_state where
  node_count : Nat
  data_references : List device_data_reference
  literals : List Nat
  operators : List ast_operator
  operator_source_indices : List Nat
  intermediate_counter : intermediate_counter
deriving DecidableEq

/-- The errors `linearizer::visit(expression)` can raise: the two
`CUDF_FAIL` calls of lines 116 and 145-148, plus the failure surfaced from
the external `ast_operator_return_type` registry (line 131). -/
inductive lin_error where
  | non_matching_operand_types : lin_error
  | unsupported_operator : lin_error
  | output_not_fixed_width : lin_error
  | output_too_large : lin_error
deriving DecidableEq

/-- Position of the first entry structurally equal to `r`, if any: the
`std::find`/`std::distance` pair of lines 188-190. -/
def find_index : List device_data_reference → device_data_reference → Option Nat
  | [], _ => none
  | x :: xs, r => if x = r then some 0 else (find_index xs r).map (· + 1)

/-- Embedding of `linearizer::add_data_reference` (lines 184-195): return
the index of an existing structurally-equal entry, otherwise append the
reference and return the new last index. -/
def linearizer_state.add_data_reference (st : linearizer_state)
    (data_ref : device_data_reference) : Nat × linearizer_state :=
  match find_index st.data_references data_ref with
  | some i => (i, st)
  | none => (st.data_references.length,
      { st with data_references := st.data_references ++ [data_ref] })

/-- Embedding of `std::adjacent_find(..., std::not_equal_to<>())` applied to
the operand type list (lines 114-115): does some adjacent pair of operand
types differ? -/
def has_adjacent_mismatch : List data_type → Bool
  | x :: y :: rest => x != y || has_adjacent_mismatch (y :: rest)
  | _ => false

/-- Embedding of the `std::for_each` loop of lines 119-128: give back the
intermediate storage locations consumed by this operation.  Only the slot
allocator changes, so reading the reference table from the running state at
each step matches the C++ loop. -/
def linearizer_state.give_intermediates (st : linearizer_state) : List Nat → linearizer_state
  | [] => st
  | i :: is =>
    let operand_source := st.data_references.getD i default
    let st' := if operand_source.reference_type = .INTERMEDIATE then
        { st with intermediate_counter := st.intermediate_counter.give operand_source.data_index }
      else st
    st'.give_intermediates is

/-- Embedding of lines 155-161: intern the output reference, then append the
operand reference indices followed by the output's own index to the flat
`operator_source_indices` sequence; the interned index is the visit's return
value. -/
def linearizer_state.push_output (st : linearizer_state) (operand_idxs : List Nat)
    (output : device_data_reference) : Nat × linearizer_state :=
  let r := st.add_data_reference output
  (r.1, { r.2 with operator_source_indices :=
    r.2.operator_source_indices ++ operand_idxs ++ [r.1] })

/-- Embedding of the body of `linearizer::visit(expression const&)` after
the operands have been visited (lines 105-161): operand type resolution and
validation, give-back of consumed intermediate slots, result type
resolution through the registry, operator emission, output resolution
(output column for the root, a fresh intermediate slot otherwise, with the
fixed-width and `sizeof(std::int64_t) = 8` byte checks), and the final
interning and index bookkeeping.  `node_index` is the node's captured
visitation index (line 102), `st2` the state after the operand visits. -/
def finish_operation (env : ExtEnv) (node_index : Nat) (op : ast_operator)
    (operand_data_reference_indices : List Nat) (st2 : linearizer_state) :
    Except lin_error (Nat × linearizer_state) :=
  let operand_types := operand_data_reference_indices.map
    (fun i => (st2.data_references.getD i default).data_type)
  if has_adjacent_mismatch operand_types then
    .error .non_matching_operand_types
  else
    let st3 := st2.give_intermediates operand_data_reference_indices
    match env.ast_operator_return_type op operand_types with
    | none => .error .unsupported_operator
    | some dt =>
      let st4 := { st3 with operators := st3.operators ++ [op] }
      if node_index = 0 then
        -- this node is the root: output goes to the output column
        .ok (st4.push_output operand_data_reference_indices
          { reference_type := .COLUMN, data_type := dt, data_index := 0,
            table_source := .OUTPUT })
      else if env.is_fixed_width dt = false then
        .error .output_not_fixed_width
      else if 8 < env.size_of dt then
        .error .output_too_large
      else
        let taken := st4.intermediate_counter.take
        .ok ({ st4 with intermediate_counter := taken.2 }.push_output
          operand_data_reference_indices
          { reference_type := .INTERMEDIATE, data_type := dt, data_index := taken.1 })

mutual

/-- Embedding of the three `linearizer::visit` overloads (lines 68-83,
85-97 and 99-162), dispatched over the node variant as `accept` does.
Returns the reference-table index of the node's resolved output together
with the updated linearizer state, or the error that aborted the run. -/
def visit (env : ExtEnv) (tbl : List data_type) :
    linearizer_state → node → Except lin_error (Nat × linearizer_state)
  | st, .literal value dtype =>
    -- lines 68-83
    let st1 := { st with node_count := st.node_count + 1 }
    let literal_index := st1.literals.length
    let st2 := { st1 with literals := st1.literals ++ [value] }
    .ok (st2.add_data_reference
      { reference_type := .LITERAL, data_type := dtype, data_index := (literal_index : Int) })
  | st, .column_reference column_index tbl_src =>
    -- lines 85-97; `expr.get_data_type(this->table)` resolves the column's
    -- type in the caller-supplied schema (header accessor, per the spec)
    let st1 := { st with node_count := st.node_count + 1 }
    .ok (st1.add_data_reference
      { reference_type := .COLUMN, data_type := tbl.getD column_index 0,
        data_index := (column_index : Int), table_source := tbl_src })
  | st, .expression op operands =>
    -- lines 99-162
    let node_index := st.node_count
    let st1 := { st with node_count := st.node_count + 1 }
    match visit_operands env tbl st1 operands with
    | .error e => .error e
    | .ok (operand_data_reference_indices, st2) =>
      finish_operation env node_index op operand_data_reference_indices st2

/-- Embedding of `linearizer::visit_operands` (lines 173-182): visit every
operand in declaration order, collecting the resolved reference indices. -/
def visit_operands (env : ExtEnv) (tbl : List data_type) :
    linearizer_state → List node → Except lin_error (List Nat × linearizer_state)
  | st, [] => .ok ([], st)
  | st, n :: ns =>
    match visit env tbl st n with
    | .error e => .error e
    | .ok (i, st1) =>
      match visit_operands env tbl st1 ns with
      | .error e => .error e
      | .ok (is, st2) => .ok (i :: is, st2)

end

/-- Modelled from the spec: a linearizer is created fresh per run (the
constructor lives in the header), with all sequences empty, the node counter
at zero and an empty slot allocator. -/
def initial_state : linearizer_state := ⟨0, [], [], [], [], intermediate_counter.empty⟩

/-- One linearization run: visit the root node starting from a fresh
state. -/
def linearize (env : ExtEnv) (tbl : List data_type) (root : node) :
    Except lin_error (Nat × linearizer_state) :=
  visit env tbl initial_state root

/-! ### Properties of the linearizer building blocks -/

/-- Allocator well-formedness threaded through a linearization run: the live
set is strictly increasing (sorted, duplicate-free) and non-negative. -/
def counterInv (c : intermediate_counter) : Prop :=
  c.used_values.Pairwise (· < ·) ∧ ∀ x ∈ c.used_values, 0 ≤ x

theorem counterInv_empty : counterInv intermediate_counter.empty := by
  constructor <;> simp [intermediate_counter.empty]

theorem give_counterInv (c : intermediate_counter) (v : Int) (h : counterInv c) :
    counterInv (c.give v) :=
  ⟨give_sorted c h.1 v, fun x hx => h.2 x (give_mem c v x hx)⟩

theorem take_counterInv (c : intermediate_counter) (h : counterInv c) :
    counterInv (c.take).2 := by
  refine ⟨take_sorted c h.1 h.2, ?_⟩
  intro x hx
  rcases (take_mem_iff c h.1 h.2 x).mp hx with hm | hm
  · exact h.2 x hm
  · rw [hm]; exact take_fst_nonneg c h.1 h.2

/-- With a well-formed allocator, the slot `take()` returns is not live
before the call. -/
theorem take_fst_not_mem (c : intermediate_counter) (h : counterInv c) :
    (c.take).1 ∉ c.used_values := by
  rw [take_fst_eq_gap c h.1 h.2]
  exact gap_not_mem c.used_values h.1 h.2

theorem find_index_some_lt (l : List device_data_reference) (r : device_data_reference)
    (i : Nat) (h : find_index l r = some i) : i < l.length := by
  induction l generalizing i with
  | nil => simp [find_index] at h
  | cons x xs ih =>
    rw [find_index] at h
    split at h
    · simp only [Option.some.injEq] at h
      simp [← h]
    · cases hx : find_index xs r with
      | none => rw [hx] at h; simp at h
      | some j =>
        rw [hx] at h
        simp only [Option.map_some', Option.some.injEq] at h
        have := ih j hx
        simp [← h]
        omega

theorem find_index_some_getD (l : List device_data_reference) (r : device_data_reference)
    (i : Nat) (h : find_index l r = some i) : l.getD i default = r := by
  induction l generalizing i with
  | nil => simp [find_index] at h
  | cons x xs ih =>
    rw [find_index] at h
    split at h
    · simp only [Option.some.injEq] at h
      subst h
      simpa using ‹x = r›
    · cases hx : find_index xs r with
      | none => rw [hx] at h; simp at h
      | some j =>
        rw [hx] at h
        simp only [Option.map_some', Option.some.injEq] at h
        subst h
        simpa using ih j hx

theorem find_index_none_append (l : List device_data_reference) (r : device_data_reference)
    (h : find_index l r = none) : find_index (l ++ [r]) r = some l.length := by
  induction l with
  | nil => simp [find_index]
  | cons x xs ih =>
    rw [find_index] at h
    split at h
    · simp at h
    · cases hx : find_index xs r with
      | none =>
        rw [List.cons_append, find_index, if_neg ‹¬ x = r›, ih hx]
        simp
      | some j => rw [hx] at h; simp at h

theorem add_data_reference_spec (st : linearizer_state) (r : device_data_reference) :
    (∃ t, (st.add_data_reference r).2.data_references = st.data_references ++ t) ∧
    (st.add_data_reference r).1 < (st.add_data_reference r).2.data_references.length ∧
    (st.add_data_reference r).2.data_references.getD (st.add_data_reference r).1 default = r ∧
    (st.add_data_reference r).2.node_count = st.node_count ∧
    (st.add_data_reference r).2.literals = st.literals ∧
    (st.add_data_reference r).2.operators = st.operators ∧
    (st.add_data_reference r).2.operator_source_indices = st.operator_source_indices ∧
    (st.add_data_reference r).2.intermediate_counter = st.intermediate_counter := by
  rw [linearizer_state.add_data_reference]
  cases hf : find_index st.data_references r with
  | some i =>
    exact ⟨⟨[], by simp⟩, find_index_some_lt _ _ _ hf, find_index_some_getD _ _ _ hf,
      rfl, rfl, rfl, rfl, rfl⟩
  | none =>
    refine ⟨⟨[r], rfl⟩, by simp, ?_, rfl, rfl, rfl, rfl, rfl⟩
    have hlen : st.data_references.length < (st.data_references ++ [r]).length := by simp
    rw [List.getD_eq_getElem _ _ hlen]
    rw [List.getElem_append_right (Nat.le_refl _)]
    simp

/-- Interning is insensitive to the fields of the state other than the
reference table; in particular the running index of an interned reference
stays valid and its entry stays equal to the interned record as the table
grows (the table is append-only). -/
theorem getD_append_of_lt (l t : List device_data_reference) (i : Nat) (h : i < l.length) :
    (l ++ t).getD i default = l.getD i default := by
  rw [List.getD_eq_getElem _ _ h, List.getD_eq_getElem _ _ (by simp; omega)]
  exact List.getElem_append_left ..

theorem give_intermediates_fields (idxs : List Nat) : ∀ st : linearizer_state,
    (st.give_intermediates idxs).node_count = st.node_count ∧
    (st.give_intermediates idxs).data_references = st.data_references ∧
    (st.give_intermediates idxs).literals = st.literals ∧
    (st.give_intermediates idxs).operators = st.operators ∧
    (st.give_intermediates idxs).operator_source_indices = st.operator_source_indices := by
  induction idxs with
  | nil => intro st; exact ⟨rfl, rfl, rfl, rfl, rfl⟩
  | cons i is ih =>
    intro st
    rw [linearizer_state.give_intermediates]
    by_cases hc : (st.data_references.getD i default).reference_type = .INTERMEDIATE
    · simp only [if_pos hc]
      exact ih _
    · simp only [if_neg hc]
      exact ih st

theorem give_intermediates_counterInv (idxs : List Nat) : ∀ st : linearizer_state,
    counterInv st.intermediate_counter →
    counterInv (st.give_intermediates idxs).intermediate_counter := by
  induction idxs with
  | nil => intro st h; exact h
  | cons i is ih =>
    intro st h
    rw [linearizer_state.give_intermediates]
    by_cases hc : (st.data_references.getD i default).reference_type = .INTERMEDIATE
    · simp only [if_pos hc]
      exact ih _ (give_counterInv _ _ h)
    · simp only [if_neg hc]
      exact ih st h

theorem push_output_spec (st : linearizer_state) (idxs : List Nat)
    (r : device_data_reference) :
    (∃ t, (st.push_output idxs r).2.data_references = st.data_references ++ t) ∧
    (st.push_output idxs r).1 < (st.push_output idxs r).2.data_references.length ∧
    (st.push_output idxs r).2.data_references.getD (st.push_output idxs r).1 default = r ∧
    (st.push_output idxs r).2.operators = st.operators ∧
    (st.push_output idxs r).2.intermediate_counter = st.intermediate_counter ∧
    (st.push_output idxs r).2.operator_source_indices =
      (st.add_data_reference r).2.operator_source_indices ++ idxs ++
        [(st.add_data_reference r).1] := by
  obtain ⟨hpre, hlt, hget, hnc, hlit, hops, hosi, hic⟩ := add_data_reference_spec st r
  rw [linearizer_state.push_output]
  exact ⟨hpre, hlt, hget, hops, hic, rfl⟩

theorem finish_operation_spec (env : ExtEnv) (node_index : Nat) (op : ast_operator)
    (idxs : List Nat) (st2 : linearizer_state) (p : Nat × linearizer_state)
    (h : finish_operation env node_index op idxs st2 = .ok p) :
    (∃ t, p.2.data_references = st2.data_references ++ t) ∧
    (∃ t, p.2.operators = st2.operators ++ t) ∧
    p.1 < p.2.data_references.length ∧
    (counterInv st2.intermediate_counter → counterInv p.2.intermediate_counter) := by
  rw [finish_operation] at h
  split at h
  · exact absurd h (by simp)
  · split at h
    · exact absurd h (by simp)
    · rename_i dt hrt
      set st3 := st2.give_intermediates idxs with hst3
      obtain ⟨hnc3, hdr3, hlit3, hops3, hosi3⟩ := give_intermediates_fields idxs st2
      rw [← hst3] at hnc3 hdr3 hlit3 hops3 hosi3
      have hci3 : counterInv st2.intermediate_counter →
          counterInv st3.intermediate_counter := by
        intro hc
        rw [hst3]
        exact give_intermediates_counterInv idxs st2 hc
      split at h
      · -- root: output column
        rw [Except.ok.injEq] at h
        subst h
        obtain ⟨⟨t, ht⟩, hlt, hget, hops, hic, hosi⟩ :=
          push_output_spec { st3 with operators := st3.operators ++ [op] } idxs
            { reference_type := .COLUMN, data_type := dt, data_index := 0,
              table_source := .OUTPUT }
        refine ⟨⟨t, ht.trans ?_⟩, ⟨[op], hops.trans ?_⟩, hlt, fun hc => ?_⟩
        · show st3.data_references ++ t = st2.data_references ++ t
          rw [hdr3]
        · show st3.operators ++ [op] = st2.operators ++ [op]
          rw [hops3]
        · rw [hic]
          exact hci3 hc
      · split at h
        · exact absurd h (by simp)
        · split at h
          · exact absurd h (by simp)
          · -- non-root: fresh intermediate slot
            rw [Except.ok.injEq] at h
            subst h
            set st4 : linearizer_state :=
              { st3 with operators := st3.operators ++ [op] } with hst4
            obtain ⟨⟨t, ht⟩, hlt, hget, hops, hic, hosi⟩ :=
              push_output_spec { st4 with intermediate_counter :=
                  (st4.intermediate_counter.take).2 } idxs
                { reference_type := .INTERMEDIATE, data_type := dt,
                  data_index := (st4.intermediate_counter.take).1 }
            refine ⟨⟨t, ht.trans ?_⟩, ⟨[op], hops.trans ?_⟩, hlt, fun hc => ?_⟩
            · show st3.data_references ++ t = st2.data_references ++ t
              rw [hdr3]
            · show st3.operators ++ [op] = st2.operators ++ [op]
              rw [hops3]
            · rw [hic]
              exact take_counterInv st3.intermediate_counter (hci3 hc)

/-- Fuel-indexed mutual structural induction establishing that a successful
visit only appends to the reference table and the operator sequence,
returns a valid reference-table index (indices for all operands in the
`visit_operands` case), and preserves the allocator invariant. -/
theorem visit_mono_aux (env : ExtEnv) (tbl : List data_type) : ∀ fuel : Nat,
    (∀ (st : linearizer_state) (n : node) (p : Nat × linearizer_state),
      sizeOf n < fuel → visit env tbl st n = .ok p →
      (∃ t, p.2.data_references = st.data_references ++ t) ∧
      (∃ t, p.2.operators = st.operators ++ t) ∧
      p.1 < p.2.data_references.length ∧
      (counterInv st.intermediate_counter → counterInv p.2.intermediate_counter)) ∧
    (∀ (st : linearizer_state) (ns : List node) (q : List Nat × linearizer_state),
      sizeOf ns < fuel → visit_operands env tbl st ns = .ok q →
      (∃ t, q.2.data_references = st.data_references ++ t) ∧
      (∃ t, q.2.operators = st.operators ++ t) ∧
      (∀ j ∈ q.1, j < q.2.data_references.length) ∧
      (counterInv st.intermediate_counter → counterInv q.2.intermediate_counter)) := by
  intro fuel
  induction fuel with
  | zero =>
    exact ⟨fun st n p h => absurd h (by omega), fun st ns q h => absurd h (by omega)⟩
  | succ fuel ih =>
    constructor
    · intro st n p hsz h
      cases n with
      | literal value dtype =>
        simp only [visit] at h
        rw [Except.ok.injEq] at h
        subst h
        obtain ⟨⟨t, ht⟩, hlt, hget, hnc, hlit, hops, hosi, hic⟩ :=
          add_data_reference_spec
            { st with node_count := st.node_count + 1, literals := st.literals ++ [value] }
            { reference_type := .LITERAL, data_type := dtype,
              data_index := (st.literals.length : Int) }
        exact ⟨⟨t, ht⟩, ⟨[], by rw [hops]; simp⟩, hlt, fun hc => by rw [hic]; exact hc⟩
      | column_reference column_index tbl_src =>
        simp only [visit] at h
        rw [Except.ok.injEq] at h
        subst h
        obtain ⟨⟨t, ht⟩, hlt, hget, hnc, hlit, hops, hosi, hic⟩ :=
          add_data_reference_spec { st with node_count := st.node_count + 1 }
            { reference_type := .COLUMN, data_type := tbl.getD column_index 0,
              data_index := (column_index : Int), table_source := tbl_src }
        exact ⟨⟨t, ht⟩, ⟨[], by rw [hops]; simp⟩, hlt, fun hc => by rw [hic]; exact hc⟩
      | expression op operands =>
        simp only [visit] at h
        cases hvo : visit_operands env tbl { st with node_count := st.node_count + 1 }
            operands with
        | error e =>
          rw [hvo] at h
          exact absurd h (by simp)
        | ok q2 =>
          obtain ⟨idxs, st2⟩ := q2
          simp only [hvo] at h
          have hso : sizeOf operands < fuel := by
            have := node.expression.sizeOf_spec op operands
            omega
          obtain ⟨⟨t2, ht2⟩, ⟨to2, hto2⟩, hjlt, hci2⟩ :=
            ih.2 { st with node_count := st.node_count + 1 } operands (idxs, st2) hso hvo
          obtain ⟨⟨t3, ht3⟩, ⟨to3, hto3⟩, hplt, hci3⟩ :=
            finish_operation_spec env st.node_count op idxs st2 p h
          have e1 : ({ st with node_count := st.node_count + 1 }
              : linearizer_state).data_references = st.data_references := rfl
          have e2 : ({ st with node_count := st.node_count + 1 }
              : linearizer_state).operators = st.operators := rfl
          rw [e1] at ht2
          rw [e2] at hto2
          exact ⟨⟨t2 ++ t3, by rw [ht3, ht2, List.append_assoc]⟩,
            ⟨to2 ++ to3, by rw [hto3, hto2, List.append_assoc]⟩, hplt,
            fun hc => hci3 (hci2 hc)⟩
    · intro st ns q hsz h
      cases ns with
      | nil =>
        simp only [visit_operands] at h
        rw [Except.ok.injEq] at h
        subst h
        exact ⟨⟨[], by simp⟩, ⟨[], by simp⟩, by simp, id⟩
      | cons n ns' =>
        simp only [visit_operands] at h
        cases hv : visit env tbl st n with
        | error e =>
          simp only [hv] at h
          exact absurd h (by simp)
        | ok p1 =>
          obtain ⟨i1, st1⟩ := p1
          simp only [hv] at h
          cases hvs : visit_operands env tbl st1 ns' with
          | error e =>
            simp only [hvs] at h
            exact absurd h (by simp)
          | ok q2 =>
            obtain ⟨is2, st2⟩ := q2
            simp only [hvs] at h
            rw [Except.ok.injEq] at h
            subst h
            have hsn : sizeOf n < fuel := by
              have := List.cons.sizeOf_spec n ns'
              omega
            have hsns : sizeOf ns' < fuel := by
              have := List.cons.sizeOf_spec n ns'
              have hspos : 0 < sizeOf n := by
                cases n <;> simp_arith
              omega
            obtain ⟨⟨ta, hta⟩, ⟨tb, htb⟩, hilt, hcia⟩ := ih.1 st n (i1, st1) hsn hv
            obtain ⟨⟨tc, htc⟩, ⟨td, htd⟩, hjlt, hcib⟩ := ih.2 st1 ns' (is2, st2) hsns hvs
            refine ⟨⟨ta ++ tc, by rw [htc, hta, List.append_assoc]⟩,
              ⟨tb ++ td, by rw [htd, htb, List.append_assoc]⟩, ?_,
              fun hc => hcib (hcia hc)⟩
            intro j hj
            rcases List.mem_cons.mp hj with rfl | hj'
            · have hlen : st1.data_references.length ≤ st2.data_references.length := by
                rw [htc]
                simp
              have hilt' : j < st1.data_references.length := hilt
              show j < st2.data_references.length
              omega
            · exact hjlt j hj'

/-- A successful visit only appends to the reference table and the operator
sequence, returns a valid index into the grown reference table, and
preserves allocator well-formedness. -/
theorem visit_mono (env : ExtEnv) (tbl : List data_type) (st : linearizer_state)
    (n : node) (p : Nat × linearizer_state) (h : visit env tbl st n = .ok p) :
    (∃ t, p.2.data_references = st.data_references ++ t) ∧
    (∃ t, p.2.operators = st.operators ++ t) ∧
    p.1 < p.2.data_references.length ∧
    (counterInv st.intermediate_counter → counterInv p.2.intermediate_counter) :=
  (visit_mono_aux env tbl (sizeOf n + 1)).1 st n p (by omega) h

/-- A successful operand sweep only appends to the reference table and the
operator sequence, hands back indices that are all valid in the resulting
reference table, and preserves allocator well-formedness. -/
theorem visit_operands_mono (env : ExtEnv) (tbl : List data_type)
    (st : linearizer_state) (ns : List node) (q : List Nat × linearizer_state)
    (h : visit_operands env tbl st ns = .ok q) :
    (∃ t, q.2.data_references = st.data_references ++ t) ∧
    (∃ t, q.2.operators = st.operators ++ t) ∧
    (∀ j ∈ q.1, j < q.2.data_references.length) ∧
    (counterInv st.intermediate_counter → counterInv q.2.intermediate_counter) :=
  (visit_mono_aux env tbl (sizeOf ns + 1)).2 st ns q (by omega) h

/-! ### Claim theorems about the linearizer -/

theorem visit_expression_eq (env : ExtEnv) (tbl : List data_type) (st : linearizer_state)
    (op : ast_operator) (operands : List node) :
    visit env tbl st (.expression op operands) =
      match visit_operands env tbl { st with node_count := st.node_count + 1 } operands with
      | .error e => .error e
      | .ok (idxs, st2) => finish_operation env st.node_count op idxs st2 := rfl

/-- The adjacent-pair scan used for operand validation flags a list exactly
when it holds two different entries. -/
theorem has_adjacent_mismatch_iff (ts : List data_type) :
    has_adjacent_mismatch ts = true ↔ ∃ x ∈ ts, ∃ y ∈ ts, x ≠ y := by
  induction ts with
  | nil => simp [has_adjacent_mismatch]
  | cons x rest ih =>
    cases rest with
    | nil => simp [has_adjacent_mismatch]
    | cons y r =>
      rw [has_adjacent_mismatch]
      simp only [Bool.or_eq_true, bne_iff_ne]
      constructor
      · rintro (hxy | hm)
        · exact ⟨x, by simp, y, by simp, hxy⟩
        · obtain ⟨a, ha, b, hb, hab⟩ := ih.mp hm
          exact ⟨a, List.mem_cons.mpr (Or.inr ha), b, List.mem_cons.mpr (Or.inr hb), hab⟩
      · rintro ⟨a, ha, b, hb, hab⟩
        by_cases hxy : x = y
        · right
          apply ih.mpr
          rcases List.mem_cons.mp ha with rfl | ha'
          · rcases List.mem_cons.mp hb with rfl | hb'
            · exact absurd rfl hab
            · exact ⟨y, by simp, b, hb', by rw [← hxy]; exact hab⟩
          · rcases List.mem_cons.mp hb with rfl | hb'
            · exact ⟨a, ha', y, by simp, by rw [← hxy]; exact hab⟩
            · exact ⟨a, ha', b, hb', hab⟩
        · exact Or.inl hxy

/-- C7: within one run, interning a reference record a second time returns
the same table index with the state unchanged (no second entry is
appended), and interning two records that differ in any field — interned
one after the other — always returns two distinct indices. -/
theorem add_data_reference_dedup (st : linearizer_state)
    (r r1 r2 : device_data_reference) :
    ((st.add_data_reference r).2.add_data_reference r = st.add_data_reference r) ∧
    (r1 ≠ r2 →
      ((st.add_data_reference r1).2.add_data_reference r2).1 ≠
        (st.add_data_reference r1).1) := by
  constructor
  · cases hf : find_index st.data_references r with
    | some i =>
      simp [linearizer_state.add_data_reference, hf]
    | none =>
      simp [linearizer_state.add_data_reference, hf,
        find_index_none_append st.data_references r hf]
  · intro hne heq
    obtain ⟨⟨ta, hta⟩, hlt1, hget1, -, -, -, -, -⟩ := add_data_reference_spec st r1
    obtain ⟨⟨tb, htb⟩, hlt2, hget2, -, -, -, -, -⟩ :=
      add_data_reference_spec (st.add_data_reference r1).2 r2
    apply hne
    have h1 : ((st.add_data_reference r1).2.add_data_reference r2).2.data_references.getD
        (st.add_data_reference r1).1 default = r1 := by
      rw [htb, getD_append_of_lt _ _ _ hlt1]
      exact hget1
    rw [← h1, ← heq]
    exact hget2

/-- Witness for `add_data_reference_dedup`: interning two column references
that differ in type and position yields distinct indices. -/
theorem add_data_reference_dedup_witness :
    (({ reference_type := .COLUMN, data_type := 3, data_index := 0 } : device_data_reference) ≠
      { reference_type := .COLUMN, data_type := 4, data_index := 1 }) ∧
    ((initial_state.add_data_reference
          { reference_type := .COLUMN, data_type := 3, data_index := 0 }).2.add_data_reference
        { reference_type := .COLUMN, data_type := 4, data_index := 1 }).1 ≠
      (initial_state.add_data_reference
        { reference_type := .COLUMN, data_type := 3, data_index := 0 }).1 :=
  ⟨by decide, (add_data_reference_dedup initial_state default
    { reference_type := .COLUMN, data_type := 3, data_index := 0 }
    { reference_type := .COLUMN, data_type := 4, data_index := 1 }).2 (by decide)⟩

/-- C8: linearization is all-or-nothing: every visit either returns a
complete result or an error carrying no partial program, and an error
during the operand sweep aborts the enclosing operation visit immediately
with that same error (nothing after the failing operand is processed). -/
theorem visit_total_or_abort :
    (∀ (env : ExtEnv) (tbl : List data_type) (st : linearizer_state) (n : node),
      (∃ p, visit env tbl st n = .ok p) ∨ (∃ e, visit env tbl st n = .error e)) ∧
    (∀ (env : ExtEnv) (tbl : List data_type) (st : linearizer_state) (op : ast_operator)
      (operands : List node) (e : lin_error),
      visit_operands env tbl { st with node_count := st.node_count + 1 } operands =
        .error e →
      visit env tbl st (.expression op operands) = .error e) := by
  constructor
  · intro env tbl st n
    cases h : visit env tbl st n with
    | ok p => exact Or.inl ⟨p, rfl⟩
    | error e => exact Or.inr ⟨e, rfl⟩
  · intro env tbl st op operands e h
    rw [visit_expression_eq, h]

/-- Concrete external environment for the worked examples: every type is
fixed-width of size 4 bytes, and every operator's result type is its first
operand's type. -/
def env0 : ExtEnv := ⟨fun _ => true, fun _ => 4, fun _ ts => some (ts.headD 0)⟩

/-- Witness for `visit_total_or_abort`: an operand whose own operands have
mismatched types (`int32` vs `int64` literals) fails the sweep, and the
enclosing operation fails with the same error. -/
theorem visit_total_or_abort_witness :
    visit_operands env0 [] { initial_state with node_count := initial_state.node_count + 1 }
        [node.expression 0 [.literal 0 3, .literal 0 4]] =
      .error .non_matching_operand_types ∧
    visit env0 [] initial_state (.expression 5 [node.expression 0 [.literal 0 3, .literal 0 4]]) =
      .error .non_matching_operand_types :=
  ⟨by rfl, visit_total_or_abort.2 env0 [] initial_state 5
    [node.expression 0 [.literal 0 3, .literal 0 4]] .non_matching_operand_types (by rfl)⟩

/-- C5: with the operands visited successfully, an operation visit fails
with the operand-type-mismatch error exactly when the resolved operand
types are not all identical — equivalently (second part), when two of the
operands resolve to different data types; no coercion path exists.  In
particular (third part) `add(column_0:int32, column_1:int64)` fails with
that error and yields no program. -/
theorem operand_type_mismatch_iff (env : ExtEnv) (tbl : List data_type)
    (st : linearizer_state) (op : ast_operator) (operands : List node)
    (idxs : List Nat) (st2 : linearizer_state)
    (hvo : visit_operands env tbl { st with node_count := st.node_count + 1 } operands =
      .ok (idxs, st2)) :
    (visit env tbl st (.expression op operands) = .error .non_matching_operand_types ↔
      has_adjacent_mismatch
        (idxs.map (fun i => (st2.data_references.getD i default).data_type)) = true) ∧
    (has_adjacent_mismatch
        (idxs.map (fun i => (st2.data_references.getD i default).data_type)) = true ↔
      ∃ x ∈ idxs.map (fun i => (st2.data_references.getD i default).data_type),
        ∃ y ∈ idxs.map (fun i => (st2.data_references.getD i default).data_type), x ≠ y) ∧
    linearize env0 [3, 4]
        (.expression 0 [.column_reference 0 .LEFT, .column_reference 1 .LEFT]) =
      .error .non_matching_operand_types := by
  refine ⟨?_, has_adjacent_mismatch_iff _, by rfl⟩
  rw [visit_expression_eq, hvo]
  constructor
  · intro hres
    by_contra hm
    simp only [finish_operation] at hres
    rw [if_neg hm] at hres
    split at hres
    · exact absurd hres (by simp)
    · split at hres
      · exact absurd hres (by simp)
      · split at hres
        · exact absurd hres (by simp)
        · split at hres
          · exact absurd hres (by simp)
          · exact absurd hres (by simp)
  · intro hm
    simp only [finish_operation]
    rw [if_pos hm]

/-- Witness for `operand_type_mismatch_iff` at the spec's example
`add(column_0:int32, column_1:int64)` (type ids 3 and 4). -/
theorem operand_type_mismatch_witness :
    visit_operands env0 [3, 4]
        { initial_state with node_count := initial_state.node_count + 1 }
        [node.column_reference 0 .LEFT, node.column_reference 1 .LEFT] =
      .ok ([0, 1], ⟨3,
        [{ reference_type := .COLUMN, data_type := 3, data_index := 0 },
         { reference_type := .COLUMN, data_type := 4, data_index := 1 }],
        [], [], [], intermediate_counter.empty⟩) ∧
    visit env0 [3, 4] initial_state
        (.expression 0 [node.column_reference 0 .LEFT, node.column_reference 1 .LEFT]) =
      .error .non_matching_operand_types :=
  ⟨by rfl,
    (operand_type_mismatch_iff env0 [3, 4] initial_state 0
      [node.column_reference 0 .LEFT, node.column_reference 1 .LEFT] [0, 1]
      ⟨3, [{ reference_type := .COLUMN, data_type := 3, data_index := 0 },
           { reference_type := .COLUMN, data_type := 4, data_index := 1 }],
        [], [], [], intermediate_counter.empty⟩ (by rfl)).1.mpr (by rfl)⟩

/-- C6: for a non-root operation whose operands visited successfully with
matching types and whose result type `dt` resolved through the registry,
the visit fails with the dedicated error when `dt` is not fixed-width, or
is fixed-width but wider than the 8-byte slot (`sizeof(std::int64_t)`);
otherwise the visit succeeds and the node's output reference is an
INTERMEDIATE reference of type `dt` carrying the freshly taken slot. -/
theorem intermediate_output_spec (env : ExtEnv) (tbl : List data_type)
    (st : linearizer_state) (op : ast_operator) (operands : List node)
    (idxs : List Nat) (st2 : linearizer_state) (dt : data_type)
    (hnz : ¬ st.node_count = 0)
    (hvo : visit_operands env tbl { st with node_count := st.node_count + 1 } operands =
      .ok (idxs, st2))
    (hmis : ¬ has_adjacent_mismatch
      (idxs.map (fun i => (st2.data_references.getD i default).data_type)) = true)
    (hret : env.ast_operator_return_type op
      (idxs.map (fun i => (st2.data_references.getD i default).data_type)) = some dt) :
    (env.is_fixed_width dt = false →
      visit env tbl st (.expression op operands) = .error .output_not_fixed_width) ∧
    (env.is_fixed_width dt = true → 8 < env.size_of dt →
      visit env tbl st (.expression op operands) = .error .output_too_large) ∧
    (env.is_fixed_width dt = true → env.size_of dt ≤ 8 →
      ∃ p, visit env tbl st (.expression op operands) = .ok p ∧
        p.2.data_references.getD p.1 default =
          { reference_type := .INTERMEDIATE, data_type := dt,
            data_index := ((st2.give_intermediates idxs).intermediate_counter.take).1 }) := by
  rw [visit_expression_eq, hvo]
  simp only [finish_operation]
  rw [if_neg hmis]
  simp only [hret]
  rw [if_neg hnz]
  refine ⟨?_, ?_, ?_⟩
  · intro hfw
    rw [if_pos hfw]
  · intro hfw hsz
    rw [if_neg (by simp [hfw]), if_pos hsz]
  · intro hfw hsz
    rw [if_neg (by simp [hfw]), if_neg (by omega)]
    exact ⟨_, rfl, (push_output_spec _ idxs _).2.2.1⟩

/-- Witness for `intermediate_output_spec`: visiting `add(a, b)` as a
non-root node (node counter already at 1) allocates slot 0 for its
output. -/
theorem intermediate_output_spec_witness :
    (¬ ({ initial_state with node_count := 1 } : linearizer_state).node_count = 0) ∧
    ∃ p, visit env0 [7, 7]
        { initial_state with node_count := 1 }
        (.expression 0 [.column_reference 0 .LEFT, .column_reference 1 .LEFT]) = .ok p ∧
      p.2.data_references.getD p.1 default =
        { reference_type := .INTERMEDIATE, data_type := 7,
          data_index := ((((⟨4,
            [{ reference_type := .COLUMN, data_type := 7, data_index := 0 },
             { reference_type := .COLUMN, data_type := 7, data_index := 1 }],
            [], [], [], intermediate_counter.empty⟩ : linearizer_state).give_intermediates
              [0, 1]).intermediate_counter.take).1) } :=
  ⟨by decide,
    (intermediate_output_spec env0 [7, 7] { initial_state with node_count := 1 } 0
      [node.column_reference 0 .LEFT, node.column_reference 1 .LEFT] [0, 1]
      ⟨4, [{ reference_type := .COLUMN, data_type := 7, data_index := 0 },
           { reference_type := .COLUMN, data_type := 7, data_index := 1 }],
        [], [], [], intermediate_counter.empty⟩ 7
      (by decide) (by rfl) (by decide) (by rfl)).2.2 (by rfl) (by decide)⟩

/-- C3: if an operation node visited at node counter 0 (the very first node
of a run, i.e. the overall root) succeeds, its resolved output reference is
the output column at position 0 — kind COLUMN with `table_source` OUTPUT,
the spec's "OUTPUT_COLUMN" — carrying the registry-resolved result type;
and if an operation node is visited at a non-zero counter (which is the
case for every operation other than the overall root, since the counter
only ever grows and is already 1 after the root is entered), its output is
an INTERMEDIATE reference of the result type carrying the slot freshly
taken from the allocator — a slot not live at allocation time. -/
theorem root_output_spec (env : ExtEnv) (tbl : List data_type)
    (st : linearizer_state) (op : ast_operator) (operands : List node)
    (p : Nat × linearizer_state)
    (h : visit env tbl st (.expression op operands) = .ok p) :
    (st.node_count = 0 → ∃ dt idxs st2,
      visit_operands env tbl { st with node_count := st.node_count + 1 } operands =
        .ok (idxs, st2) ∧
      env.ast_operator_return_type op
        (idxs.map (fun i => (st2.data_references.getD i default).data_type)) = some dt ∧
      p.2.data_references.getD p.1 default =
        { reference_type := .COLUMN, data_type := dt, data_index := 0,
          table_source := .OUTPUT }) ∧
    (¬ st.node_count = 0 → ∃ dt idxs st2,
      visit_operands env tbl { st with node_count := st.node_count + 1 } operands =
        .ok (idxs, st2) ∧
      env.ast_operator_return_type op
        (idxs.map (fun i => (st2.data_references.getD i default).data_type)) = some dt ∧
      p.2.data_references.getD p.1 default =
        { reference_type := .INTERMEDIATE, data_type := dt,
          data_index := ((st2.give_intermediates idxs).intermediate_counter.take).1 } ∧
      (counterInv st.intermediate_counter →
        ((st2.give_intermediates idxs).intermediate_counter.take).1 ∉
          (st2.give_intermediates idxs).intermediate_counter.used_values)) := by
  rw [visit_expression_eq] at h
  cases hvo : visit_operands env tbl { st with node_count := st.node_count + 1 }
      operands with
  | error e =>
    rw [hvo] at h
    exact absurd h (by simp)
  | ok q =>
    obtain ⟨idxs, st2⟩ := q
    rw [hvo] at h
    simp only [finish_operation] at h
    split at h
    · exact absurd h (by simp)
    · split at h
      · exact absurd h (by simp)
      · rename_i dt hret
        split at h
        · rename_i hroot
          rw [Except.ok.injEq] at h
          subst h
          constructor
          · intro h0
            exact ⟨dt, idxs, st2, rfl, hret, (push_output_spec _ idxs _).2.2.1⟩
          · intro hnz
            exact absurd hroot hnz
        · rename_i hroot
          split at h
          · exact absurd h (by simp)
          · split at h
            · exact absurd h (by simp)
            · rw [Except.ok.injEq] at h
              subst h
              constructor
              · intro h0
                exact absurd h0 hroot
              · intro hnz
                refine ⟨dt, idxs, st2, rfl, hret, ?_, ?_⟩
                · exact (push_output_spec _ idxs _).2.2.1
                · intro hc
                  have hc1 : counterInv ({ st with node_count := st.node_count + 1 }
                      : linearizer_state).intermediate_counter := hc
                  have hc2 := (visit_operands_mono env tbl _ operands (idxs, st2) hvo).2.2.2 hc1
                  have hc3 := give_intermediates_counterInv idxs st2 hc2
                  exact take_fst_not_mem _ hc3

/-- Final state of the worked run `add(column_0, column_1)` over the schema
`[int32, int32]` (type id 3): two column references, the operator and the
output-column reference at table index 2. -/
def stAdd : linearizer_state :=
  ⟨3, [{ reference_type := .COLUMN, data_type := 3, data_index := 0 },
       { reference_type := .COLUMN, data_type := 3, data_index := 1 },
       { reference_type := .COLUMN, data_type := 3, data_index := 0,
         table_source := .OUTPUT }],
    [], [0], [0, 1, 2], intermediate_counter.empty⟩

/-- Witness for `root_output_spec`: the run `add(column_0, column_1)` from a
fresh state resolves the root's output to the output column. -/
theorem root_output_spec_witness :
    visit env0 [3, 3] initial_state
        (.expression 0 [.column_reference 0 .LEFT, .column_reference 1 .LEFT]) =
      .ok (2, stAdd) ∧
    (∃ dt idxs st2,
      visit_operands env0 [3, 3]
          { initial_state with node_count := initial_state.node_count + 1 }
          [node.column_reference 0 .LEFT, node.column_reference 1 .LEFT] =
        .ok (idxs, st2) ∧
      env0.ast_operator_return_type 0
        (idxs.map (fun i => (st2.data_references.getD i default).data_type)) = some dt ∧
      stAdd.data_references.getD 2 default =
        { reference_type := .COLUMN, data_type := dt, data_index := 0,
          table_source := .OUTPUT }) :=
  ⟨by rfl,
    (root_output_spec env0 [3, 3] initial_state 0
      [node.column_reference 0 .LEFT, node.column_reference 1 .LEFT] (2, stAdd)
      (by rfl)).1 rfl⟩

/-- C4: on a successful operation visit, the operand sweep succeeded first,
every operand reference index it returned is already interned (a valid
index into the reference table as it stands before the parent's operator
tag is emitted), the operator sequence accumulated by the sweep — holding
the operators of all child operations — only extends the incoming one, and
the parent's own operator tag is appended strictly after it: children's
operators precede their parent's in the emitted sequence. -/
theorem topological_emission (env : ExtEnv) (tbl : List data_type)
    (st : linearizer_state) (op : ast_operator) (operands : List node)
    (p : Nat × linearizer_state)
    (h : visit env tbl st (.expression op operands) = .ok p) :
    ∃ idxs st2,
      visit_operands env tbl { st with node_count := st.node_count + 1 } operands =
        .ok (idxs, st2) ∧
      (∀ j ∈ idxs, j < st2.data_references.length) ∧
      (∃ t, st2.operators = st.operators ++ t) ∧
      p.2.operators = st2.operators ++ [op] := by
  rw [visit_expression_eq] at h
  cases hvo : visit_operands env tbl { st with node_count := st.node_count + 1 }
      operands with
  | error e =>
    rw [hvo] at h
    exact absurd h (by simp)
  | ok q =>
    obtain ⟨idxs, st2⟩ := q
    rw [hvo] at h
    simp only [finish_operation] at h
    obtain ⟨-, ⟨t, ht⟩, hjlt, -⟩ :=
      visit_operands_mono env tbl { st with node_count := st.node_count + 1 }
        operands (idxs, st2) hvo
    refine ⟨idxs, st2, rfl, hjlt, ⟨t, ht⟩, ?_⟩
    split at h
    · exact absurd h (by simp)
    · split at h
      · exact absurd h (by simp)
      · rename_i dt hret
        split at h
        · rw [Except.ok.injEq] at h
          subst h
          exact ((push_output_spec _ idxs _).2.2.2.1).trans
            (show (st2.give_intermediates idxs).operators ++ [op] =
                st2.operators ++ [op] by
              rw [(give_intermediates_fields idxs st2).2.2.2.1])
        · split at h
          · exact absurd h (by simp)
          · split at h
            · exact absurd h (by simp)
            · rw [Except.ok.injEq] at h
              subst h
              exact ((push_output_spec _ idxs _).2.2.2.1).trans
                (show (st2.give_intermediates idxs).operators ++ [op] =
                    st2.operators ++ [op] by
                  rw [(give_intermediates_fields idxs st2).2.2.2.1])

/-- Witness for `topological_emission` at the run `add(column_0,
column_1)`. -/
theorem topological_emission_witness :
    visit env0 [3, 3] initial_state
        (.expression 0 [.column_reference 0 .LEFT, .column_reference 1 .LEFT]) =
      .ok (2, stAdd) ∧
    (∃ idxs st2,
      visit_operands env0 [3, 3]
          { initial_state with node_count := initial_state.node_count + 1 }
          [node.column_reference 0 .LEFT, node.column_reference 1 .LEFT] =
        .ok (idxs, st2) ∧
      (∀ j ∈ idxs, j < st2.data_references.length) ∧
      (∃ t, st2.operators = initial_state.operators ++ t) ∧
      stAdd.operators = st2.operators ++ [0]) :=
  ⟨by rfl,
    topological_emission env0 [3, 3] initial_state 0
      [node.column_reference 0 .LEFT, node.column_reference 1 .LEFT] (2, stAdd)
      (by rfl)⟩

/-- C9: linearizing `add(add(a, b), c)` — all operands of one fixed-width
type (id 7) — succeeds with exactly one INTERMEDIATE reference in the whole
table (slot 0, holding the inner add's result), a finally empty live set
(the slot was given back when the outer add consumed it), and a peak slot
count — the scratch width `peak()` reports — of 1. -/
theorem nested_add_one_slot :
    linearize env0 [7, 7, 7]
        (.expression 0
          [.expression 0 [.column_reference 0 .LEFT, .column_reference 1 .LEFT],
           .column_reference 2 .LEFT]) =
      .ok (4, ⟨5,
        [{ reference_type := .COLUMN, data_type := 7, data_index := 0 },
         { reference_type := .COLUMN, data_type := 7, data_index := 1 },
         { reference_type := .INTERMEDIATE, data_type := 7, data_index := 0 },
         { reference_type := .COLUMN, data_type := 7, data_index := 2 },
         { reference_type := .COLUMN, data_type := 7, data_index := 0,
           table_source := .OUTPUT }],
        [], [0, 0], [0, 1, 2, 2, 3, 4], ⟨[], 1⟩⟩) ∧
    (⟨[], 1⟩ : intermediate_counter).peak = 1 ∧
    (⟨[], 1⟩ : intermediate_counter).used_values = [] :=
  ⟨by rfl, rfl, rfl⟩

end CudfAst
